import Mathlib

/-!
Verification of the femtobot memory subsystem (session compaction, fact
extraction, file-notes context budgeting, and memory consolidation).

Modelling conventions.  Rust `String`s are modelled by Lean `String`s; the
code under study indexes strings by bytes, which coincides with the
char-level view used here on ASCII content (all concrete inputs below are
ASCII).  The Rust standard string operations (`trim`, `to_lowercase`,
`replace`, `split`, `lines`, ...) are given explicit char-list models so
that every definition evaluates by kernel reduction.  Rust `usize`
arithmetic with `saturating_sub` is Nat subtraction.  Rust `f32`/`f64`
values are modelled by the inductive `F32` (a rational payload for finite
values plus the non-finite points); the code only ever compares, clamps to
`[0,1]` and defaults such values, and on those operations the rational
model is exact.  Calls to the network (similarity search, chat completion)
are supplied as oracle arguments, and store mutations are recorded as an
explicit call trace.
-/

namespace Femtobot

/-- One chat turn, as in `memory/client.rs` (`ChatMessage`). -/
structure ChatMessage where
  role : String
  content : String
deriving DecidableEq, Repr

/-! ### Char-list models of the Rust string operations -/

/-- Rust `str::to_lowercase` (ASCII view). -/
def rustToLower (s : String) : String :=
  (s.toList.map Char.toLower).asString

/-- Rust `str::to_uppercase` (ASCII view). -/
def rustToUpper (s : String) : String :=
  (s.toList.map Char.toUpper).asString

/-- Rust `str::trim`: strip whitespace from both ends. -/
def rustTrim (s : String) : String :=
  (((s.toList.dropWhile fun c => c.isWhitespace).reverse.dropWhile
    fun c => c.isWhitespace).reverse).asString

/-- Substring test: does `hay` contain `pat` (Rust `str::contains`)? -/
def isSubList (pat : List Char) : List Char → Bool
  | [] => pat.isEmpty
  | c :: t => pat.isPrefixOf (c :: t) || isSubList pat t

/-- Byte index of the first occurrence of `pat` in `hay` (Rust `str::find`). -/
def findSub (pat : List Char) : List Char → Option Nat
  | [] => if pat.isEmpty then some 0 else none
  | c :: t =>
    if pat.isPrefixOf (c :: t) then some 0
    else (findSub pat t).map (· + 1)

/-- Byte index of the last occurrence of `pat` in `hay` (Rust `str::rfind`). -/
def rfindSub (pat : List Char) : List Char → Option Nat
  | [] => if pat.isEmpty then some 0 else none
  | c :: t =>
    match rfindSub pat t with
    | some i => some (i + 1)
    | none => if pat.isPrefixOf (c :: t) then some 0 else none

/-- Rust `str::contains` on `String`. -/
def containsSub (hay pat : String) : Bool :=
  isSubList pat.toList hay.toList

/-- Leftmost non-overlapping replacement of the nonempty pattern
`p :: ps` by `rep` (worker of Rust `str::replace`).  The fuel argument,
instantiated with the input length, only makes the recursion structural:
it never runs out, because each step consumes at least one char. -/
def replaceListF (p : Char) (ps rep : List Char) : Nat → List Char → List Char
  | _, [] => []
  | 0, l => l
  | fuel + 1, c :: t =>
    if (p :: ps).isPrefixOf (c :: t) then
      rep ++ replaceListF p ps rep fuel (t.drop ps.length)
    else c :: replaceListF p ps rep fuel t

/-- Rust `str::replace` (the patterns used by the code are nonempty). -/
def rustReplace (s pat rep : String) : String :=
  match pat.toList with
  | [] => s
  | p :: ps => (replaceListF p ps rep.toList s.toList.length s.toList).asString

/-- Split on the nonempty separator `p :: ps` (worker of `str::split`);
fuel as in `replaceListF`. -/
def splitListF (p : Char) (ps : List Char) : Nat → List Char → List (List Char)
  | _, [] => [[]]
  | 0, l => [l]
  | fuel + 1, c :: t =>
    if (p :: ps).isPrefixOf (c :: t) then
      [] :: splitListF p ps fuel (t.drop ps.length)
    else
      match splitListF p ps fuel t with
      | [] => [[c]]
      | h :: r => (c :: h) :: r

/-- Rust `str::split` with a literal separator. -/
def rustSplit (s sep : String) : List String :=
  match sep.toList with
  | [] => [s]
  | p :: ps => (splitListF p ps s.toList.length s.toList).map List.asString

/-- Rust `str::ends_with`. -/
def rustEndsWith (s suffix : String) : Bool :=
  suffix.toList.isSuffixOf s.toList

/-- Rust `str::lines`: split on newlines, stripping a carriage return before
each newline and dropping the final empty segment of a trailing newline. -/
def rustLines (s : String) : List String :=
  let parts := rustSplit s "\n"
  let init := parts.dropLast.map
    (fun t => if rustEndsWith t "\r" then t.toList.dropLast.asString else t)
  match parts.getLast? with
  | some "" => init
  | some t => init ++ [t]
  | none => init

/-- First `n` chars of a string, as `s.chars().take(n).collect()`. -/
def takeChars (n : Nat) (s : String) : String :=
  (s.toList.take n).asString

/-! ### Session compactor (`session_compaction.rs`) -/

/-- Keyword table `FACT_KEYWORDS` from `memory/extractor.rs`. -/
def FACT_KEYWORDS : List String :=
  ["my name is", "i am", "i'm", "i work", "i live", "i prefer",
   "remember that", "note that", "important:", "email:", "phone:",
   "address:", "birthday:", "project uses", "using", "configured to"]

/-- Inner line loop of `extract_facts_from_messages`; the `Bool` component
signals the early `return` taken once `facts.len() >= max_facts`. -/
def effLines (maxFacts : Nat) :
    List String → List String → List String → (List String × List String × Bool)
  | [], facts, seen => (facts, seen, false)
  | l :: ls, facts, seen =>
    if (rustTrim l).length < 10 then effLines maxFacts ls facts seen
    else if FACT_KEYWORDS.any (fun kw => containsSub (rustToLower (rustTrim l)) kw) then
      if takeChars 200 (rustTrim l) ∈ seen then effLines maxFacts ls facts seen
      else
        if maxFacts ≤ (facts ++ [takeChars 200 (rustTrim l)]).length then
          (facts ++ [takeChars 200 (rustTrim l)], seen ++ [takeChars 200 (rustTrim l)], true)
        else effLines maxFacts ls (facts ++ [takeChars 200 (rustTrim l)])
          (seen ++ [takeChars 200 (rustTrim l)])
    else effLines maxFacts ls facts seen

/-- Message loop of `extract_facts_from_messages`. -/
def effGo (maxFacts : Nat) :
    List ChatMessage → List String → List String → List String
  | [], facts, _ => facts
  | m :: ms, facts, seen =>
    if m.role == "system" then effGo maxFacts ms facts seen
    else
      match effLines maxFacts (rustLines m.content) facts seen with
      | (facts2, _, true) => facts2
      | (facts2, seen2, false) => effGo maxFacts ms facts2 seen2

/-- `extract_facts_from_messages` from `memory/extractor.rs`. -/
def extract_facts_from_messages (messages : List ChatMessage) (maxFacts : Nat) :
    List String :=
  effGo maxFacts messages [] []

/-- Compaction configuration (`CompactionConfig`). -/
structure CompactionConfig where
  threshold : Nat
  recent_turns_keep : Nat
  summary_max_turns : Nat
  max_facts : Nat
deriving DecidableEq, Repr

/-- The `Default` instance of `CompactionConfig`. -/
def defaultCompactionConfig : CompactionConfig :=
  { threshold := 50, recent_turns_keep := 8, summary_max_turns := 15, max_facts := 10 }

/-- User-question accumulation in `SessionCompactor::summarize`. -/
def sumUserLines : List String → List String → List String
  | [], uq => uq
  | l :: ls, uq =>
    if rustEndsWith (rustTrim l) "?" && decide (20 < (rustTrim l).length) then
      if takeChars 150 (rustTrim l) ∈ uq then sumUserLines ls uq
      else sumUserLines ls (uq ++ [takeChars 150 (rustTrim l)])
    else sumUserLines ls uq

/-- Assistant-conclusion step in `SessionCompactor::summarize`: the first of
the first three '.'-sentences whose trimmed length exceeds 30 is pushed
(deduplicated), then the loop breaks. -/
def sumAsst (content : String) (ac : List String) : List String :=
  match ((rustSplit content ".").take 3).find?
      (fun s => decide (30 < (rustTrim s).length)) with
  | some s =>
    if takeChars 150 (rustTrim s) ∈ ac then ac
    else ac ++ [takeChars 150 (rustTrim s)]
  | none => ac

/-- Message loop of `SessionCompactor::summarize`. -/
def sumGo : List ChatMessage → List String → List String → (List String × List String)
  | [], uq, ac => (uq, ac)
  | m :: ms, uq, ac =>
    if rustTrim m.content == "" then sumGo ms uq ac
    else
      sumGo ms
        (if m.role == "user" then sumUserLines (rustLines (rustTrim m.content)) uq
         else uq)
        (if m.role == "assistant" && decide (50 < (rustTrim m.content).length) then
          sumAsst (rustTrim m.content) ac
         else ac)

/-- `SessionCompactor::summarize`. -/
def summarize (messages : List ChatMessage) : String :=
  let p := sumGo messages [] []
  let parts : List String :=
    (if p.1.isEmpty then [] else
      "User asked about:" :: (p.1.take 3).map (fun q => "  - " ++ q)) ++
    (if p.2.isEmpty then [] else
      "Assistant responses:" :: (p.2.take 3).map (fun c => "  - " ++ c))
  if parts.isEmpty then "General discussion continued"
  else String.intercalate "\n" parts

/-- `SessionCompactor::extract_facts`: the keyword scan joined as a bullet
list. -/
def extractFactsBlock (cfg : CompactionConfig) (messages : List ChatMessage) : String :=
  String.intercalate "\n"
    ((extract_facts_from_messages messages cfg.max_facts).map (fun fact => "- " ++ fact))

/-- Recap blocks gathered into `recall_parts` by `SessionCompactor::compact`:
a fact block from the `old` region and a summary block from the `middle`
region, each pushed only when its region and rendering are nonempty. -/
def recallParts (cfg : CompactionConfig) (messages : List ChatMessage) :
    List String :=
  let recentStart := messages.length - cfg.recent_turns_keep * 2
  let middleStart := recentStart - cfg.summary_max_turns * 2
  let middle := (messages.take recentStart).drop middleStart
  let old := messages.take middleStart
  (if !old.isEmpty && !(extractFactsBlock cfg old == "") then
    ["Key facts:\n" ++ extractFactsBlock cfg old] else []) ++
  (if !middle.isEmpty && !(summarize middle == "") then
    ["Recent discussion summary:\n" ++ summarize middle] else [])

/-- Body of `SessionCompactor::compact` past the threshold test: an optional
synthetic recap turn followed by the verbatim `recent` slice. -/
def compactCore (cfg : CompactionConfig) (messages : List ChatMessage) :
    List ChatMessage :=
  let recent := messages.drop (messages.length - cfg.recent_turns_keep * 2)
  if (recallParts cfg messages).isEmpty then recent
  else
    ⟨"assistant",
      "[Recalling from earlier in our conversation]\n\n" ++
        String.intercalate "\n\n" (recallParts cfg messages)⟩ :: recent

/-- `SessionCompactor::compact`. -/
def compact (cfg : CompactionConfig) (messages : List ChatMessage) :
    List ChatMessage :=
  if messages.length < cfg.threshold then messages
  else compactCore cfg messages

theorem compactCore_shape (cfg : CompactionConfig) (messages : List ChatMessage) :
    ∃ p : List ChatMessage,
      compactCore cfg messages =
        p ++ messages.drop (messages.length - cfg.recent_turns_keep * 2) ∧
      p.length ≤ 1 := by
  by_cases h : (recallParts cfg messages).isEmpty
  · exact ⟨[], by simp [compactCore, h], by simp⟩
  · refine ⟨[⟨"assistant",
      "[Recalling from earlier in our conversation]\n\n" ++
        String.intercalate "\n\n" (recallParts cfg messages)⟩], ?_, by simp⟩
    simp [compactCore, h]

theorem compactCore_length (cfg : CompactionConfig) (messages : List ChatMessage) :
    (compactCore cfg messages).length ≤ cfg.recent_turns_keep * 2 + 1 := by
  obtain ⟨p, hp, hlen⟩ := compactCore_shape cfg messages
  rw [hp]
  have hd : (messages.drop (messages.length - cfg.recent_turns_keep * 2)).length ≤
      cfg.recent_turns_keep * 2 := by
    rw [List.length_drop]
    omega
  simp only [List.length_append]
  omega

/-- C3: below the threshold, `compact` is the identity; at or above it, the
output ends with exactly the last `recent_turns_keep * 2` original messages,
verbatim and in order, preceded by at most one synthetic recap message. -/
theorem compact_threshold_spec (cfg : CompactionConfig) (messages : List ChatMessage) :
    (messages.length < cfg.threshold → compact cfg messages = messages) ∧
    (cfg.threshold ≤ messages.length →
      ∃ p : List ChatMessage,
        compact cfg messages =
          p ++ messages.drop (messages.length - cfg.recent_turns_keep * 2) ∧
        p.length ≤ 1) := by
  constructor
  · intro h
    simp [compact, h]
  · intro h
    have h' : ¬ messages.length < cfg.threshold := by omega
    rw [compact, if_neg h']
    exact compactCore_shape cfg messages

/-- Witness for `compact_threshold_spec` at a concrete history and config. -/
theorem compact_threshold_spec_witness :
    (compact ⟨2, 1, 1, 10⟩ [⟨"user", "a"⟩] = [⟨"user", "a"⟩]) ∧
    ∃ p : List ChatMessage,
      compact ⟨2, 1, 1, 10⟩ [⟨"user", "a"⟩, ⟨"user", "b"⟩, ⟨"user", "c"⟩] =
        p ++ [⟨"user", "b"⟩, ⟨"user", "c"⟩] ∧ p.length ≤ 1 := by
  constructor
  · exact (compact_threshold_spec ⟨2, 1, 1, 10⟩ [⟨"user", "a"⟩]).1 (by decide)
  · have h := (compact_threshold_spec ⟨2, 1, 1, 10⟩
      [⟨"user", "a"⟩, ⟨"user", "b"⟩, ⟨"user", "c"⟩]).2 (by decide)
    simpa using h

/-- C10: whenever `recent_turns_keep * 2 + 1 < threshold` (in particular for
the default configuration), `compact` is idempotent: a compacted output has
at most `recent_turns_keep * 2 + 1` messages, so a second pass falls below
the threshold and returns it unchanged. -/
theorem compact_idempotent (cfg : CompactionConfig) (messages : List ChatMessage)
    (h : cfg.recent_turns_keep * 2 + 1 < cfg.threshold) :
    compact cfg (compact cfg messages) = compact cfg messages := by
  by_cases hlen : messages.length < cfg.threshold
  · have h1 : compact cfg messages = messages := by rw [compact, if_pos hlen]
    rw [h1, h1]
  · have hlt : (compact cfg messages).length < cfg.threshold := by
      rw [compact, if_neg hlen]
      exact lt_of_le_of_lt (compactCore_length cfg messages) h
    rw [compact, if_pos hlt]

/-- Witness for `compact_idempotent` on the default configuration. -/
theorem compact_idempotent_witness :
    defaultCompactionConfig.recent_turns_keep * 2 + 1 <
      defaultCompactionConfig.threshold ∧
    compact defaultCompactionConfig
        (compact defaultCompactionConfig [⟨"user", "hello"⟩]) =
      compact defaultCompactionConfig [⟨"user", "hello"⟩] :=
  ⟨by decide, compact_idempotent defaultCompactionConfig [⟨"user", "hello"⟩] (by decide)⟩

/-! ### Fact extractor (`memory/extractor.rs`) -/

/-- The rational 3/10, the `f32` literal `0.3` of the source.  These
importance constants are written as explicit reduced fractions so that
every statement about them evaluates by kernel reduction. -/
def q0_3 : ℚ := ⟨3, 10, by decide, by decide⟩

/-- The rational 1/2, the `f32` literal `0.5` of the source. -/
def q0_5 : ℚ := ⟨1, 2, by decide, by decide⟩

/-- The rational 3/5, the `f32` literal `0.6` of the source. -/
def q0_6 : ℚ := ⟨3, 5, by decide, by decide⟩

/-- The rational 7/10, the `f32` literal `0.7` of the source. -/
def q0_7 : ℚ := ⟨7, 10, by decide, by decide⟩

/-- The rational 4/5, the `f32` literal `0.8` of the source. -/
def q0_8 : ℚ := ⟨4, 5, by decide, by decide⟩

/-- The rational 9/10, the `f32` literal `0.9` of the source. -/
def q0_9 : ℚ := ⟨9, 10, by decide, by decide⟩

/-- Model of an `f32` value: a rational payload for finite values, plus
the non-finite points.  The code under study only tests finiteness, clamps
to `[0, 1]` and substitutes defaults, and on those operations this model
is exact (0 and 1 are exactly representable and comparisons of finite
floats agree with the rational order). -/
inductive F32 where
  | finite (q : ℚ)
  | nan
  | inf
  | neginf
deriving DecidableEq, Repr

/-- An extracted candidate fact (`ExtractedFact`); `importance` is an `f32`
in the source, modelled by `F32`. -/
structure ExtractedFact where
  content : String
  importance : F32
  source : String
deriving DecidableEq, Repr

/-- Raw parsed item of the extraction response (`ExtractedFactSchema`). -/
structure ExtractedFactSchema where
  fact : String
  importance : String
deriving DecidableEq, Repr

/-- Word characters of the regex `\w` class (ASCII view). -/
def isWordChar (c : Char) : Bool :=
  c.isAlphanum || c == '_'

/-- Word list of the first trivial-acknowledgement pattern
`(ok|okay|yes|no|thanks|sure|got it|cool|nice|great|hmm|ah|oh|lol|yep|yeah)`. -/
def TRIVIAL_WORDS : List String :=
  ["ok", "okay", "yes", "no", "thanks", "sure", "got it", "cool", "nice",
   "great", "hmm", "ah", "oh", "lol", "yep", "yeah"]

/-- Tail of the first trivial pattern after the acknowledgement word:
an optional single '.', '!' or '?' followed by whitespace only. -/
def trivialTailOk (l : List Char) : Bool :=
  l.all (fun c => c.isWhitespace) ||
  (match l with
   | c :: t => (c == '.' || c == '!' || c == '?') && t.all (fun d => d.isWhitespace)
   | [] => false)

/-- Match of the first trivial-acknowledgement regex (anchored, and
case-sensitive exactly as compiled in `MemoryExtractor::new`). -/
def matchesTrivialWord (s : String) : Bool :=
  TRIVIAL_WORDS.any (fun w =>
    w.toList.isPrefixOf s.toList && trivialTailOk (s.toList.drop w.length))

/-- Match of the second trivial pattern, a string of whitespace and
non-word characters only. -/
def matchesNonWord (s : String) : Bool :=
  s.toList.all (fun c => c.isWhitespace || !isWordChar c)

/-- The disjunction of the two compiled `trivial_patterns`. -/
def isTrivial (s : String) : Bool :=
  matchesTrivialWord s || matchesNonWord s

/-- `sanitize_for_prompt`: neutralize fences and HTML-like brackets, then
cap at 2000 chars with an ellipsis. -/
def sanitize_for_prompt (text : String) : String :=
  let s := rustReplace (rustReplace (rustReplace (rustReplace text
    "```" "'''") "</" "&lt;/") "<" "&lt;") ">" "&gt;"
  if 2000 < s.length then takeChars 2000 s ++ "..." else s

/-- `format_conversation`: the last 20 messages, user and assistant roles
only, each sanitized and capped at 500 chars, rendered role-tagged. -/
def format_conversation (messages : List ChatMessage) : String :=
  let window := messages.drop (messages.length - 20)
  let parts := window.filterMap (fun m =>
    if m.role == "user" || m.role == "assistant" then
      some (rustToUpper m.role ++ ": " ++
        (if 500 < (sanitize_for_prompt m.content).length then
          takeChars 500 (sanitize_for_prompt m.content)
         else sanitize_for_prompt m.content))
    else none)
  String.intercalate "\n" parts

/-- Indicator table of `heuristic_extract`, with its fixed importances. -/
def HEURISTIC_PATTERNS : List (String × F32) :=
  [("my name is", .finite q0_9), ("i am a", .finite q0_7),
   ("i work", .finite q0_8), ("i live", .finite q0_8),
   ("i prefer", .finite q0_7), ("i like", .finite q0_6),
   ("i use", .finite q0_6), ("call me", .finite q0_8)]

/-- Sentence end used by `heuristic_extract`: the separators '.', '!', '?',
newline are tried in that fixed order, and the first one found anywhere
after `start` supplies the cut position (end of content if none occurs). -/
def clauseEnd (content : List Char) (start : Nat) : Nat :=
  ((([['.'], ['!'], ['?'], ['\n']] : List (List Char)).filterMap
    (fun sep => (findSub sep (content.drop start)).map (· + start))).head?).getD
    content.length

/-- The clause selected by `heuristic_extract` for an indicator occurrence
at `start`, before rewriting: `content[start..end].trim()`. -/
def heuClause (cl : List Char) (start : Nat) : String :=
  rustTrim ((cl.take (clauseEnd cl start)).drop start).asString

/-- Rewrite table `THIRD_PERSON_RULES`. -/
def THIRD_PERSON_RULES : List (String × String) :=
  [("my", "User's"), ("i am", "User is"), ("i'm", "User is"),
   ("i have", "User has"), ("i've", "User has"), ("i will", "User will"),
   ("i'll", "User will"), ("i", "User")]

/-- Word-boundary test on the left context of a match. -/
def boundaryBefore : Option Char → Bool
  | none => true
  | some c => !isWordChar c

/-- Word-boundary test on the right context of a match. -/
def boundaryAfter : List Char → Bool
  | [] => true
  | c :: _ => !isWordChar c

/-- Regex `replace_all` for a literal pattern `p :: ps` wrapped in `\b`
boundaries (every rewrite-rule pattern starts and ends in a word char, so a
word boundary there means a non-word neighbour or the string edge).
Matches are found left to right on the original text, non-overlapping. -/
def rawbGo (p : Char) (ps rep : List Char) :
    Nat → Option Char → List Char → List Char
  | _, _, [] => []
  | 0, _, l => l
  | fuel + 1, prev, c :: t =>
    if (p :: ps).isPrefixOf (c :: t) && boundaryBefore prev &&
        boundaryAfter (t.drop ps.length) then
      rep ++ rawbGo p ps rep fuel ((p :: ps).getLast?) (t.drop ps.length)
    else c :: rawbGo p ps rep fuel (some c) t

/-- `Regex::replace_all` for one `\b pat \b` rule on a char list. -/
def replaceAllWB (pat rep : String) (l : List Char) : List Char :=
  match pat.toList with
  | [] => l
  | p :: ps => rawbGo p ps rep.toList l.length none l

/-- `to_third_person`: the boundary rewrites applied in declared order,
then the literal cleanup of doubled subjects. -/
def to_third_person (text : String) : String :=
  rustReplace (THIRD_PERSON_RULES.foldl
    (fun acc rule => (replaceAllWB rule.1 rule.2 acc.toList).asString) text)
    "User User" "User"

/-- ASCII-uppercase the first char, as `get_mut(0..1).make_ascii_uppercase`. -/
def capitalizeFirst (s : String) : String :=
  match s.toList with
  | [] => s
  | c :: t => (c.toUpper :: t).asString

/-- Inner pattern loop of `heuristic_extract` for one lowercased message. -/
def heuPats (cl : List Char) :
    List (String × F32) → (List ExtractedFact × List String) →
      (List ExtractedFact × List String)
  | [], acc => acc
  | (ind, imp) :: ps, (facts, seen) =>
    match findSub ind.toList cl with
    | some start =>
      if 5 < (heuClause cl start).length then
        if capitalizeFirst (to_third_person (heuClause cl start)) ∈ seen then
          heuPats cl ps (facts, seen)
        else
          heuPats cl ps
            (facts ++ [⟨capitalizeFirst (to_third_person (heuClause cl start)),
              imp, "heuristic"⟩],
             seen ++ [capitalizeFirst (to_third_person (heuClause cl start))])
      else heuPats cl ps (facts, seen)
    | none => heuPats cl ps (facts, seen)

/-- Message loop of `heuristic_extract` (user-authored turns only). -/
def heuGo : List ChatMessage → (List ExtractedFact × List String) →
    (List ExtractedFact × List String)
  | [], acc => acc
  | m :: ms, acc =>
    if m.role == "user" then
      heuGo ms (heuPats (rustToLower m.content).toList HEURISTIC_PATTERNS acc)
    else heuGo ms acc

/-- `heuristic_extract` from `memory/extractor.rs`. -/
def heuristic_extract (messages : List ChatMessage) : List ExtractedFact :=
  (heuGo messages ([], [])).1

/-- Mapping of parsed extraction items in `MemoryExtractor::llm_extract`:
cap at `max_facts`, map importance labels to weights, neutralize markup. -/
def llmExtractMap (maxFacts : Nat) (raw : List ExtractedFactSchema) :
    List ExtractedFact :=
  (raw.take maxFacts).map (fun item =>
    ⟨rustReplace (rustReplace item.fact "<" "&lt;") ">" "&gt;",
     if item.importance == "high" then F32.finite q0_9
     else if item.importance == "low" then F32.finite q0_3
     else F32.finite q0_7,
     "llm"⟩)

/-- Tail of `MemoryExtractor::extract` past the skip gates: the transcript
length floor, then the model call (`llm` is the parsed response, `none`
when the call failed or its output did not parse) with the heuristic
fallback.  The `Bool` records that the model call was issued. -/
def extractTail (messages : List ChatMessage)
    (llm : Option (List ExtractedFactSchema)) (maxFacts : Nat) :
    List ExtractedFact × Bool :=
  if (format_conversation messages).length < 50 then ([], false)
  else
    match llm with
    | some raw => ((llmExtractMap maxFacts raw).take maxFacts, true)
    | none => ((heuristic_extract messages).take maxFacts, true)

/-- `MemoryExtractor::extract`: skip gates (empty history, user-turn floor,
trivial last user turn, transcript floor), then the model path. -/
def extract (messages : List ChatMessage)
    (llm : Option (List ExtractedFactSchema)) (maxFacts : Nat) :
    List ExtractedFact × Bool :=
  if messages.isEmpty then ([], false)
  else
    if (messages.filter (fun m => m.role == "user")).length < 3 then ([], false)
    else
      match (messages.filter (fun m => m.role == "user")).getLast? with
      | some last =>
        if rustTrim last.content == "" || isTrivial (rustTrim last.content) then
          ([], false)
        else extractTail messages llm maxFacts
      | none => extractTail messages llm maxFacts

/-- C7: with fewer than three user turns, `extract` returns no facts and
does not issue a model call, whatever the messages contain. -/
theorem extract_user_floor (messages : List ChatMessage)
    (llm : Option (List ExtractedFactSchema)) (maxFacts : Nat)
    (h : (messages.filter (fun m => m.role == "user")).length < 3) :
    extract messages llm maxFacts = ([], false) := by
  by_cases he : messages.isEmpty
  · simp [extract, he]
  · simp [extract, he, if_pos h]

/-- Witness for `extract_user_floor` at a two-user-turn history. -/
theorem extract_user_floor_witness :
    (([⟨"user", "my name is alice and i work at acme corp"⟩,
       ⟨"assistant", "noted"⟩, ⟨"user", "i live in berlin"⟩] :
        List ChatMessage).filter (fun m => m.role == "user")).length < 3 ∧
    extract [⟨"user", "my name is alice and i work at acme corp"⟩,
      ⟨"assistant", "noted"⟩, ⟨"user", "i live in berlin"⟩]
      (some [⟨"User works at Acme", "high"⟩]) 10 = ([], false) :=
  ⟨by decide,
    extract_user_floor _ (some [⟨"User works at Acme", "high"⟩]) 10 (by decide)⟩

/-- C6 counterexample: "OK" is a trivial acknowledgement up to case, yet a
three-user-turn history ending in "OK" is not skipped — `extract` issues
the model call and returns its facts, because the compiled patterns are
case-sensitive. -/
theorem extract_trivial_case_counterexample :
    isTrivial (rustToLower "OK") = true ∧
    extract [⟨"user", "my name is alice and i work at acme corp"⟩,
        ⟨"user", "please remember this thing for me"⟩, ⟨"user", "OK"⟩]
      (some [⟨"User works at Acme", "high"⟩]) 10 =
      ([⟨"User works at Acme", F32.finite q0_9, "llm"⟩], true) := by
  exact ⟨by decide, by decide⟩

/-- C6 (amended): if the latest user turn trims to the empty string, or
matches the trivial-acknowledgement patterns as actually compiled — the
word list case-sensitively with at most one trailing '.', '!' or '?', or a
string of whitespace and non-word characters — then `extract` returns no
facts and issues no model call. -/
theorem extract_trivial_skip (messages : List ChatMessage)
    (llm : Option (List ExtractedFactSchema)) (maxFacts : Nat)
    (last : ChatMessage)
    (hlast : (messages.filter (fun m => m.role == "user")).getLast? = some last)
    (htriv : rustTrim last.content = "" ∨
      isTrivial (rustTrim last.content) = true) :
    extract messages llm maxFacts = ([], false) := by
  by_cases he : messages.isEmpty
  · simp [extract, he]
  · by_cases h3 : (messages.filter (fun m => m.role == "user")).length < 3
    · simp [extract, he, h3]
    · have hcond : (rustTrim last.content == "" ||
          isTrivial (rustTrim last.content)) = true := by
        rcases htriv with h | h <;> simp [h]
      simp [extract, he, h3, hlast, hcond]

/-- Witness for `extract_trivial_skip` at a history ending in "ok!". -/
theorem extract_trivial_skip_witness :
    (([⟨"user", "hello there my friend"⟩, ⟨"user", "what is going on"⟩,
        ⟨"user", "ok!"⟩] : List ChatMessage).filter
      (fun m => m.role == "user")).getLast? = some ⟨"user", "ok!"⟩ ∧
    isTrivial (rustTrim "ok!") = true ∧
    extract [⟨"user", "hello there my friend"⟩, ⟨"user", "what is going on"⟩,
      ⟨"user", "ok!"⟩] none 10 = ([], false) :=
  ⟨by decide, by decide,
    extract_trivial_skip _ none 10 ⟨"user", "ok!"⟩ (by decide)
      (Or.inr (by decide))⟩

/-- Shape of a heuristic fact extracted from one lowercased message body
`cl`: some indicator of the table occurs, the clause runs from its first
occurrence to the priority-order separator cut, exceeds five chars after
trimming, and the fact is its third-person rewrite, capitalized. -/
def FactFromContent (cl : List Char) (f : ExtractedFact) : Prop :=
  f.source = "heuristic" ∧
  ∃ ind imp, (ind, imp) ∈ HEURISTIC_PATTERNS ∧ f.importance = imp ∧
  ∃ start, findSub ind.toList cl = some start ∧
    5 < (heuClause cl start).length ∧
    f.content = capitalizeFirst (to_third_person (heuClause cl start))

theorem heuPats_spec (cl : List Char) :
    ∀ (ps : List (String × F32)) (facts : List ExtractedFact) (seen : List String),
      seen = facts.map (fun f => f.content) →
      (∀ x ∈ ps, x ∈ HEURISTIC_PATTERNS) →
      ((heuPats cl ps (facts, seen)).2 =
        (heuPats cl ps (facts, seen)).1.map (fun f => f.content)) ∧
      ((facts.map (fun f => f.content)).Nodup →
        ((heuPats cl ps (facts, seen)).1.map (fun f => f.content)).Nodup) ∧
      (∀ f ∈ (heuPats cl ps (facts, seen)).1, f ∈ facts ∨ FactFromContent cl f) := by
  intro ps
  induction ps with
  | nil =>
    intro facts seen hseen _
    simp only [heuPats]
    exact ⟨hseen, fun h => h, fun f hf => Or.inl hf⟩
  | cons hd tl ih =>
    intro facts seen hseen hps
    obtain ⟨ind, imp⟩ := hd
    have hmem : (ind, imp) ∈ HEURISTIC_PATTERNS := hps _ (List.mem_cons_self _ _)
    have hps' : ∀ x ∈ tl, x ∈ HEURISTIC_PATTERNS :=
      fun x hx => hps x (List.mem_cons_of_mem _ hx)
    simp only [heuPats]
    cases hfind : findSub ind.toList cl with
    | none => exact ih facts seen hseen hps'
    | some start =>
      dsimp only
      by_cases hlen : 5 < (heuClause cl start).length
      · rw [if_pos hlen]
        generalize hF : capitalizeFirst (to_third_person (heuClause cl start)) = F
        by_cases hin : F ∈ seen
        · rw [if_pos hin]
          exact ih facts seen hseen hps'
        · rw [if_neg hin]
          have hseen' : seen ++ [F] =
              (facts ++ [(⟨F, imp, "heuristic"⟩ : ExtractedFact)]).map
                (fun f => f.content) := by
            simp [hseen]
          obtain ⟨c1, c2, c3⟩ := ih _ _ hseen' hps'
          refine ⟨c1, ?_, ?_⟩
          · intro hnd
            apply c2
            simp only [List.map_append, List.map_cons, List.map_nil]
            rw [List.nodup_append]
            refine ⟨hnd, List.nodup_singleton _, ?_⟩
            intro a ha hb
            rw [List.mem_singleton] at hb
            apply hin
            rw [hseen]
            exact hb ▸ ha
          · intro f hf
            rcases c3 f hf with hfin | hfc
            · rcases List.mem_append.1 hfin with h | h
              · exact Or.inl h
              · rw [List.mem_singleton] at h
                refine Or.inr ?_
                rw [h]
                exact ⟨rfl, ind, imp, hmem, rfl, start, hfind, hlen, hF.symm⟩
            · exact Or.inr hfc
      · rw [if_neg hlen]
        exact ih facts seen hseen hps'

theorem heuGo_spec :
    ∀ (ms : List ChatMessage) (facts : List ExtractedFact) (seen : List String),
      seen = facts.map (fun f => f.content) →
      ((heuGo ms (facts, seen)).2 =
        (heuGo ms (facts, seen)).1.map (fun f => f.content)) ∧
      ((facts.map (fun f => f.content)).Nodup →
        ((heuGo ms (facts, seen)).1.map (fun f => f.content)).Nodup) ∧
      (∀ f ∈ (heuGo ms (facts, seen)).1, f ∈ facts ∨
        ∃ m ∈ ms, m.role = "user" ∧
          FactFromContent (rustToLower m.content).toList f) := by
  intro ms
  induction ms with
  | nil =>
    intro facts seen hseen
    simp only [heuGo]
    exact ⟨hseen, fun h => h, fun f hf => Or.inl hf⟩
  | cons m ms ih =>
    intro facts seen hseen
    by_cases hrole : m.role == "user"
    · simp only [heuGo, hrole, if_pos]
      obtain ⟨p1, p2, p3⟩ := heuPats_spec (rustToLower m.content).toList
        HEURISTIC_PATTERNS facts seen hseen (fun x hx => hx)
      rcases hq : heuPats (rustToLower m.content).toList HEURISTIC_PATTERNS (facts, seen)
        with ⟨facts1, seen1⟩
      rw [hq] at p1 p2 p3
      obtain ⟨c1, c2, c3⟩ := ih facts1 seen1 p1
      refine ⟨c1, fun hnd => c2 (p2 hnd), ?_⟩
      intro f hf
      rcases c3 f hf with hf1 | hf1
      · rcases p3 f hf1 with hf2 | hf2
        · exact Or.inl hf2
        · exact Or.inr ⟨m, List.mem_cons_self _ _, by simpa using hrole, hf2⟩
      · obtain ⟨m', hm', hrole', hfc⟩ := hf1
        exact Or.inr ⟨m', List.mem_cons_of_mem _ hm', hrole', hfc⟩
    · simp only [heuGo, hrole, if_neg]
      obtain ⟨c1, c2, c3⟩ := ih facts seen hseen
      refine ⟨c1, c2, ?_⟩
      intro f hf
      rcases c3 f hf with hf1 | hf1
      · exact Or.inl hf1
      · obtain ⟨m', hm', hrole', hfc⟩ := hf1
        exact Or.inr ⟨m', List.mem_cons_of_mem _ hm', hrole', hfc⟩

/-- C8 (amended): heuristic facts are deduplicated by exact text; each one
comes from a user-authored turn containing an indicator phrase, spans from
the indicator to the separator cut, and is third-person rewritten and
capitalized; the cut is at the first separator found when trying '.', '!',
'?', newline in that fixed order (the position of '.' anywhere after the
indicator if '.' occurs, else of '!', and so on; end of message if none
occurs), not at the earliest boundary. -/
theorem heuristic_extract_spec (messages : List ChatMessage) :
    ((heuristic_extract messages).map (fun f => f.content)).Nodup ∧
    (∀ f ∈ heuristic_extract messages,
      ∃ m ∈ messages, m.role = "user" ∧
        FactFromContent (rustToLower m.content).toList f) ∧
    (∀ (content : List Char) (start : Nat),
      clauseEnd content start =
        match findSub ['.'] (content.drop start) with
        | some p => p + start
        | none =>
          match findSub ['!'] (content.drop start) with
          | some p => p + start
          | none =>
            match findSub ['?'] (content.drop start) with
            | some p => p + start
            | none =>
              match findSub ['\n'] (content.drop start) with
              | some p => p + start
              | none => content.length) := by
  obtain ⟨h1, h2, h3⟩ := heuGo_spec messages [] [] rfl
  refine ⟨h2 (by simp), ?_, ?_⟩
  · intro f hf
    rcases h3 f hf with h | h
    · simp at h
    · exact h
  · intro content start
    cases e1 : findSub ['.'] (content.drop start) <;>
      cases e2 : findSub ['!'] (content.drop start) <;>
        cases e3 : findSub ['?'] (content.drop start) <;>
          cases e4 : findSub ['\n'] (content.drop start) <;>
            simp [clauseEnd, e1, e2, e3, e4]

/-- Witness for `heuristic_extract_spec`: the single fact extracted from
"my name is bob" satisfies the characterization. -/
theorem heuristic_extract_spec_witness :
    (⟨"User's name is bob", F32.finite q0_9, "heuristic"⟩ : ExtractedFact) ∈
      heuristic_extract [⟨"user", "my name is bob"⟩] ∧
    ∃ m ∈ ([⟨"user", "my name is bob"⟩] : List ChatMessage), m.role = "user" ∧
      FactFromContent (rustToLower m.content).toList
        ⟨"User's name is bob", F32.finite q0_9, "heuristic"⟩ :=
  ⟨by decide,
    (heuristic_extract_spec [⟨"user", "my name is bob"⟩]).2.1 _ (by decide)⟩

/-- C8 counterexample: in "i live in paris! yes. done" the earliest
sentence boundary after the indicator is the '!' at index 15, but the
extracted clause runs to the '.' at index 20 because '.' is tried first;
the fact therefore contains the '!' boundary rather than stopping at it. -/
theorem heuristic_boundary_counterexample :
    findSub ['!'] ("i live in paris! yes. done".toList.drop 0) = some 15 ∧
    findSub ['.'] ("i live in paris! yes. done".toList.drop 0) = some 20 ∧
    (heuristic_extract [⟨"user", "i live in paris! yes. done"⟩]).map
      (fun f => f.content) = ["User live in paris! yes"] ∧
    ("User live in paris! yes" : String) ≠ "User live in paris" := by
  exact ⟨by decide, by decide, by decide, by decide⟩

/-! ### Memory consolidator (`memory/consolidator.rs`)

The vector store itself (`memory/vector_store.rs`) is referenced by the
consolidator but its source is not part of the tree under study; following
the spec, its `add`/`update`/`delete` mutations are recorded here as an
explicit trace of `StoreCall`s, and its `search` answer and the found/not
found answer of `update` are oracle inputs. -/

/-- A stored memory item, with the two fields the consolidator reads
(`MemoryItem` of the missing `vector_store.rs`; per the spec it also
carries embedding, namespace, metadata and timestamps, none of which the
consolidator's decision logic touches). -/
structure MemoryItem where
  id : String
  content : String
deriving DecidableEq, Repr

/-- `Operation` from `memory/consolidator.rs`. -/
inductive Operation where
  | add
  | update
  | delete
  | noop
deriving DecidableEq, Repr

/-- `ConsolidationResult`; `similarity` is an `f32` score, modelled as a
rational. -/
structure ConsolidationResult where
  operation : Operation
  memory_id : Option String
  old_content : Option String
  new_content : Option String
  similarity : ℚ
  reason : String
deriving DecidableEq, Repr

/-- The parsed completion response (`ConsolidationDecision`); the serde
defaults make the last three fields optional. -/
structure ConsolidationDecision where
  operation : String
  memory_id : Option String
  content : Option String
  reason : Option String
deriving DecidableEq, Repr

/-- `sanitize_storage_content`: neutralize HTML-like brackets. -/
def sanitize_storage_content (text : String) : String :=
  rustReplace (rustReplace text "<" "&lt;") ">" "&gt;"

/-- Operation parsing in `llm_decide_operation`: uppercase then match, any
unknown string defaulting to ADD. -/
def opOfString (s : String) : Operation :=
  if rustToUpper s == "UPDATE" then .update
  else if rustToUpper s == "DELETE" then .delete
  else if rustToUpper s == "NOOP" then .noop
  else .add

/-- `MemoryConsolidator::llm_decide_operation` past the completion call:
normalize the parsed decision, then validate UPDATE/DELETE targets against
the candidate list, downgrading to ADD on a missing or unknown id. -/
def llm_decide_operation (fact : String) (candidates : List (MemoryItem × ℚ))
    (decision : ConsolidationDecision) : ConsolidationResult :=
  let base : ConsolidationResult :=
    ⟨opOfString decision.operation, decision.memory_id, none,
     decision.content.orElse (fun _ => some fact),
     ((candidates.head?).map (fun c => c.2)).getD 0,
     decision.reason.getD "LLM decision"⟩
  if opOfString decision.operation == Operation.update ||
      opOfString decision.operation == Operation.delete then
    match decision.memory_id with
    | some mid =>
      match candidates.find? (fun c => c.1.id == mid) with
      | some c => { base with old_content := some c.1.content, similarity := c.2 }
      | none =>
        { base with
            operation := .add
            memory_id := none
            reason := "Invalid memory_id" }
    | none => { base with operation := .add, reason := "Missing memory_id" }
  else base

/-- One store mutation issued by `execute_operation`; the metadata map
carries the single `importance` key, recorded here as its value. -/
inductive StoreCall where
  | add (content : String) (importance : ℚ) (ns : String)
  | update (id : String) (content : String) (importance : ℚ) (ns : String)
  | delete (id : String) (ns : String)
deriving DecidableEq, Repr

/-- The re-add step at the end of the Delete arm of `execute_operation`:
add the replacement content unless it equals the recorded old content. -/
def deleteReAdd (result : ConsolidationResult) (ns : String)
    (importance : ℚ) : List StoreCall :=
  match result.new_content with
  | some content =>
    match result.old_content with
    | some old =>
      if content == old then []
      else [.add (sanitize_storage_content content) importance ns]
    | none => [.add (sanitize_storage_content content) importance ns]
  | none => []

/-- `MemoryConsolidator::execute_operation`, as the list of store calls it
performs.  `updateFound` is the store's answer to `update` (whether the id
was found); on `false` the code falls back to `add`. -/
def execute_operation (result : ConsolidationResult) (ns : String)
    (importance : ℚ) (valid_ids : List String) (updateFound : Bool) :
    List StoreCall :=
  match result.operation with
  | .add =>
    match result.new_content with
    | some content => [.add (sanitize_storage_content content) importance ns]
    | none => []
  | .update =>
    match result.memory_id, result.new_content with
    | some id, some content =>
      if valid_ids.contains id then
        if updateFound then
          [.update id (sanitize_storage_content content) importance ns]
        else
          [.update id (sanitize_storage_content content) importance ns,
           .add (sanitize_storage_content content) importance ns]
      else []
    | _, _ => []
  | .delete =>
    match result.memory_id with
    | some id =>
      if valid_ids.contains id then
        .delete id ns :: deleteReAdd result ns importance
      else []
    | none => deleteReAdd result ns importance
  | .noop => []

/-- The importance computation of `MemoryConsolidator::consolidate`
(lines 94-98): finite values clamped to `[0, 1]`, non-finite values
replaced by `0.5`. -/
def computeImportance : F32 → ℚ
  | .finite q => min (max q 0) 1
  | _ => q0_5

/-- Oracle inputs for one fact of a consolidation batch: the store's
answer to the similarity search (`none` = the search call failed), the
parsed completion decision (`none` = the call failed or its response did
not parse), and whether `update` finds its target. -/
structure FactOracle where
  search : Option (List (MemoryItem × ℚ))
  llm : Option ConsolidationDecision
  updateFound : Bool
deriving Repr

/-- One iteration of the loop in `MemoryConsolidator::consolidate`: the
noise filter, then `consolidate_single` (search; empty-candidate ADD; the
completion decision) with the `unwrap_or_else` fail-open fallback, then
`execute_operation` with the clamped importance and the valid id set. -/
def consolidateStep (fact : ExtractedFact) (oracle : FactOracle) (ns : String) :
    Option ConsolidationResult × List StoreCall :=
  if (rustTrim fact.content).length < 5 then (none, [])
  else
    let pair : ConsolidationResult × List String :=
      match oracle.search with
      | none => (⟨.add, none, none, some fact.content, 0, "LLM failed"⟩, [])
      | some [] =>
        (⟨.add, none, none, some (rustTrim fact.content), 0,
          "No similar memories found"⟩, [])
      | some (c :: cs) =>
        match oracle.llm with
        | none => (⟨.add, none, none, some fact.content, 0, "LLM failed"⟩, [])
        | some d =>
          (llm_decide_operation (rustTrim fact.content) (c :: cs) d,
           (c :: cs).map (fun x => x.1.id))
    (some pair.1,
     execute_operation pair.1 ns (computeImportance fact.importance) pair.2
       oracle.updateFound)

/-- `MemoryConsolidator::consolidate` over a batch of facts, collecting
the pushed results and the full store-call trace. -/
def consolidate (facts : List (ExtractedFact × FactOracle)) (ns : String) :
    List ConsolidationResult × List StoreCall :=
  match facts with
  | [] => ([], [])
  | (fact, oracle) :: rest =>
    ((match (consolidateStep fact oracle ns).1 with
      | some res => [res]
      | none => []) ++ (consolidate rest ns).1,
     (consolidateStep fact oracle ns).2 ++ (consolidate rest ns).2)

theorem execute_operation_valid_targets (result : ConsolidationResult)
    (ns : String) (importance : ℚ) (valid_ids : List String)
    (updateFound : Bool) :
    (∀ id content imp ns2, StoreCall.update id content imp ns2 ∈
      execute_operation result ns importance valid_ids updateFound →
      id ∈ valid_ids) ∧
    (∀ id ns2, StoreCall.delete id ns2 ∈
      execute_operation result ns importance valid_ids updateFound →
      id ∈ valid_ids) := by
  have hre : ∀ c, c ∈ deleteReAdd result ns importance →
      ∃ cc ii nn, c = StoreCall.add cc ii nn := by
    intro c hc
    unfold deleteReAdd at hc
    cases hnc : result.new_content with
    | none => rw [hnc] at hc; simp at hc
    | some content =>
      rw [hnc] at hc
      cases hoc : result.old_content with
      | none =>
        rw [hoc] at hc
        simp at hc
        exact ⟨_, _, _, hc⟩
      | some old =>
        rw [hoc] at hc
        by_cases he : (content == old) = true
        · simp [he] at hc
        · simp [he] at hc
          exact ⟨_, _, _, hc⟩
  constructor
  · intro id content imp ns2 hmem
    cases hoper : result.operation
    case add =>
      cases hnc : result.new_content <;>
        simp [execute_operation, hoper, hnc] at hmem
    case noop => simp [execute_operation, hoper] at hmem
    case update =>
      cases hmid : result.memory_id with
      | none => simp [execute_operation, hoper, hmid] at hmem
      | some id0 =>
        cases hnc : result.new_content with
        | none => simp [execute_operation, hoper, hmid, hnc] at hmem
        | some content0 =>
          simp only [execute_operation, hoper, hmid, hnc] at hmem
          by_cases hc : valid_ids.contains id0
          · rw [if_pos hc] at hmem
            have hidmem : id0 ∈ valid_ids := by simpa using hc
            cases updateFound <;> simp_all
          · rw [if_neg hc] at hmem
            simp at hmem
    case delete =>
      cases hmid : result.memory_id with
      | none =>
        simp only [execute_operation, hoper, hmid] at hmem
        obtain ⟨_, _, _, h⟩ := hre _ hmem
        simp at h
      | some id0 =>
        simp only [execute_operation, hoper, hmid] at hmem
        by_cases hc : valid_ids.contains id0
        · rw [if_pos hc] at hmem
          rcases List.mem_cons.1 hmem with h | h
          · simp at h
          · obtain ⟨_, _, _, h2⟩ := hre _ h
            simp at h2
        · rw [if_neg hc] at hmem
          simp at hmem
  · intro id ns2 hmem
    cases hoper : result.operation
    case add =>
      cases hnc : result.new_content <;>
        simp [execute_operation, hoper, hnc] at hmem
    case noop => simp [execute_operation, hoper] at hmem
    case update =>
      cases hmid : result.memory_id with
      | none => simp [execute_operation, hoper, hmid] at hmem
      | some id0 =>
        cases hnc : result.new_content with
        | none => simp [execute_operation, hoper, hmid, hnc] at hmem
        | some content0 =>
          simp only [execute_operation, hoper, hmid, hnc] at hmem
          by_cases hc : valid_ids.contains id0
          · rw [if_pos hc] at hmem
            cases updateFound <;> simp at hmem
          · rw [if_neg hc] at hmem
            simp at hmem
    case delete =>
      cases hmid : result.memory_id with
      | none =>
        simp only [execute_operation, hoper, hmid] at hmem
        obtain ⟨_, _, _, h⟩ := hre _ hmem
        simp at h
      | some id0 =>
        simp only [execute_operation, hoper, hmid] at hmem
        by_cases hc : valid_ids.contains id0
        · rw [if_pos hc] at hmem
          have hidmem : id0 ∈ valid_ids := by simpa using hc
          rcases List.mem_cons.1 hmem with h | h
          · simp at h
            rw [h.1]
            exact hidmem
          · obtain ⟨_, _, _, h2⟩ := hre _ h
            simp at h2
        · rw [if_neg hc] at hmem
          simp at hmem

/-- C1: a completion decision whose operation reads UPDATE or DELETE but
whose `memory_id` is missing, or names an id outside the retrieved
candidate set, is downgraded to Add with the reason overridden to flag the
invalid reference; and `execute_operation` never issues an update or
delete store call for an id outside the valid id set it is given. -/
theorem consolidator_id_hallucination_safety (fact : String)
    (candidates : List (MemoryItem × ℚ)) (d : ConsolidationDecision)
    (hop : rustToUpper d.operation = "UPDATE" ∨
      rustToUpper d.operation = "DELETE")
    (hid : d.memory_id = none ∨
      ∃ mid, d.memory_id = some mid ∧
        mid ∉ candidates.map (fun c => c.1.id)) :
    ((llm_decide_operation fact candidates d).operation = .add ∧
      ((llm_decide_operation fact candidates d).reason = "Missing memory_id" ∨
       (llm_decide_operation fact candidates d).reason = "Invalid memory_id")) ∧
    (∀ (result : ConsolidationResult) (ns : String) (importance : ℚ)
        (valid_ids : List String) (updateFound : Bool),
      (∀ id content imp ns2, StoreCall.update id content imp ns2 ∈
        execute_operation result ns importance valid_ids updateFound →
        id ∈ valid_ids) ∧
      (∀ id ns2, StoreCall.delete id ns2 ∈
        execute_operation result ns importance valid_ids updateFound →
        id ∈ valid_ids)) := by
  constructor
  · have hcond : (opOfString d.operation == Operation.update ||
        opOfString d.operation == Operation.delete) = true := by
      rcases hop with h | h <;> simp [opOfString, h]
    rcases hid with hnone | ⟨mid, hmid, hnotin⟩
    · simp [llm_decide_operation, hcond, hnone]
    · have hfind : (candidates.find? (fun c => c.1.id == mid)) = none := by
        rw [List.find?_eq_none]
        intro c hc
        simp only [beq_iff_eq]
        intro hceq
        exact hnotin (by rw [← hceq]; exact List.mem_map_of_mem _ hc)
      simp [llm_decide_operation, hcond, hmid, hfind]
  · intro result ns importance valid_ids updateFound
    exact execute_operation_valid_targets result ns importance valid_ids
      updateFound

/-- Witness for `consolidator_id_hallucination_safety`: an UPDATE decision
naming an id absent from the single-candidate set. -/
theorem consolidator_id_hallucination_safety_witness :
    ((llm_decide_operation "User likes green tea"
        [(⟨"abc", "User likes tea"⟩, q0_8)]
        ⟨"UPDATE", some "zzz", some "merged", some "model says so"⟩).operation =
      Operation.add ∧
      ((llm_decide_operation "User likes green tea"
          [(⟨"abc", "User likes tea"⟩, q0_8)]
          ⟨"UPDATE", some "zzz", some "merged", some "model says so"⟩).reason =
        "Missing memory_id" ∨
       (llm_decide_operation "User likes green tea"
          [(⟨"abc", "User likes tea"⟩, q0_8)]
          ⟨"UPDATE", some "zzz", some "merged", some "model says so"⟩).reason =
        "Invalid memory_id")) ∧
    (∀ (result : ConsolidationResult) (ns : String) (importance : ℚ)
        (valid_ids : List String) (updateFound : Bool),
      (∀ id content imp ns2, StoreCall.update id content imp ns2 ∈
        execute_operation result ns importance valid_ids updateFound →
        id ∈ valid_ids) ∧
      (∀ id ns2, StoreCall.delete id ns2 ∈
        execute_operation result ns importance valid_ids updateFound →
        id ∈ valid_ids)) :=
  consolidator_id_hallucination_safety "User likes green tea"
    [(⟨"abc", "User likes tea"⟩, q0_8)]
    ⟨"UPDATE", some "zzz", some "merged", some "model says so"⟩
    (Or.inl (by decide)) (Or.inr ⟨"zzz", rfl, by decide⟩)

/-- C2: when the similarity search found at least one candidate and the
completion call failed or its response did not parse, the step produces
the fail-open decision — Add, reason "LLM failed", `new_content` the
fact's (untrimmed) content, similarity 0 — and still stores the fact via
a single add call. -/
theorem consolidate_llm_failure_fail_open (fact : ExtractedFact)
    (oracle : FactOracle) (ns : String)
    (hlen : ¬ (rustTrim fact.content).length < 5)
    (c : MemoryItem × ℚ) (cs : List (MemoryItem × ℚ))
    (hsearch : oracle.search = some (c :: cs))
    (hllm : oracle.llm = none) :
    consolidateStep fact oracle ns =
      (some ⟨.add, none, none, some fact.content, 0, "LLM failed"⟩,
       [StoreCall.add (sanitize_storage_content fact.content)
         (computeImportance fact.importance) ns]) := by
  simp [consolidateStep, hlen, hsearch, hllm, execute_operation]

/-- Witness for `consolidate_llm_failure_fail_open`. -/
theorem consolidate_llm_failure_fail_open_witness :
    consolidateStep ⟨"user likes tea", F32.finite q0_7, "llm"⟩
      ⟨some [(⟨"m1", "User drinks tea"⟩, q0_5)], none, true⟩ "default" =
      (some ⟨.add, none, none, some "user likes tea", 0, "LLM failed"⟩,
       [StoreCall.add (sanitize_storage_content "user likes tea")
         (computeImportance (F32.finite q0_7)) "default"]) :=
  consolidate_llm_failure_fail_open ⟨"user likes tea", F32.finite q0_7, "llm"⟩
    ⟨some [(⟨"m1", "User drinks tea"⟩, q0_5)], none, true⟩ "default"
    (by decide) (⟨"m1", "User drinks tea"⟩, q0_5) [] rfl rfl

/-- C5: an executed Delete decision whose target id is in the valid set
issues the delete call for that id, followed by an add of the replacement
content exactly when it differs from the recorded old content of the
deleted item; identical replacement content produces no re-add. -/
theorem execute_delete_replacement (result : ConsolidationResult)
    (ns : String) (importance : ℚ) (valid_ids : List String)
    (updateFound : Bool) (id old newc : String)
    (hop : result.operation = .delete)
    (hid : result.memory_id = some id)
    (hvalid : id ∈ valid_ids)
    (hold : result.old_content = some old)
    (hnew : result.new_content = some newc) :
    execute_operation result ns importance valid_ids updateFound =
      StoreCall.delete id ns ::
        (if newc = old then []
         else [StoreCall.add (sanitize_storage_content newc) importance ns]) := by
  have hc : valid_ids.contains id = true := by simpa using hvalid
  simp [execute_operation, hop, hid, hc, hvalid, deleteReAdd, hnew, hold]

/-- Witness for `execute_delete_replacement`, in both the differing and
the identical replacement-content cases. -/
theorem execute_delete_replacement_witness :
    execute_operation ⟨.delete, some "abc", some "User likes tea",
        some "User hates tea", q0_8, "contradicts"⟩ "default" q0_7 ["abc"]
        true =
      [StoreCall.delete "abc" "default",
       StoreCall.add (sanitize_storage_content "User hates tea") q0_7
         "default"] ∧
    execute_operation ⟨.delete, some "abc", some "User likes tea",
        some "User likes tea", q0_8, "dup"⟩ "default" q0_7 ["abc"] true =
      [StoreCall.delete "abc" "default"] := by
  constructor
  · have h := execute_delete_replacement
      ⟨.delete, some "abc", some "User likes tea", some "User hates tea",
        q0_8, "contradicts"⟩ "default" q0_7 ["abc"] true "abc"
      "User likes tea" "User hates tea" rfl rfl (by decide) rfl rfl
    rw [h]
    simp
  · have h := execute_delete_replacement
      ⟨.delete, some "abc", some "User likes tea", some "User likes tea",
        q0_8, "dup"⟩ "default" q0_7 ["abc"] true "abc"
      "User likes tea" "User likes tea" rfl rfl (by decide) rfl rfl
    rw [h]
    simp

theorem computeImportance_bounds (x : F32) :
    0 ≤ computeImportance x ∧ computeImportance x ≤ 1 := by
  cases x with
  | finite q =>
    constructor
    · exact le_min (le_max_right q 0) (by norm_num)
    · exact min_le_right _ _
  | nan => exact ⟨by decide, by decide⟩
  | inf => exact ⟨by decide, by decide⟩
  | neginf => exact ⟨by decide, by decide⟩

theorem execute_operation_importance (result : ConsolidationResult)
    (ns : String) (importance : ℚ) (valid_ids : List String)
    (updateFound : Bool) (call : StoreCall)
    (hmem : call ∈ execute_operation result ns importance valid_ids
      updateFound) :
    (∀ content imp ns2, call = StoreCall.add content imp ns2 →
      imp = importance) ∧
    (∀ id content imp ns2, call = StoreCall.update id content imp ns2 →
      imp = importance) := by
  have hre : ∀ c, c ∈ deleteReAdd result ns importance →
      ∃ cc nn, c = StoreCall.add cc importance nn := by
    intro c hc
    unfold deleteReAdd at hc
    cases hnc : result.new_content with
    | none => rw [hnc] at hc; simp at hc
    | some content =>
      rw [hnc] at hc
      cases hoc : result.old_content with
      | none =>
        rw [hoc] at hc
        simp at hc
        exact ⟨_, _, hc⟩
      | some old =>
        rw [hoc] at hc
        by_cases he : (content == old) = true
        · simp [he] at hc
        · simp [he] at hc
          exact ⟨_, _, hc⟩
  cases hoper : result.operation
  case add =>
    cases hnc : result.new_content with
    | none => simp [execute_operation, hoper, hnc] at hmem
    | some content =>
      simp [execute_operation, hoper, hnc] at hmem
      constructor
      · intro content2 imp ns2 hcall
        rw [hmem] at hcall
        simp at hcall
        exact hcall.2.1.symm
      · intro id content2 imp ns2 hcall
        rw [hmem] at hcall
        simp at hcall
  case noop => simp [execute_operation, hoper] at hmem
  case update =>
    cases hmid : result.memory_id with
    | none => simp [execute_operation, hoper, hmid] at hmem
    | some id0 =>
      cases hnc : result.new_content with
      | none => simp [execute_operation, hoper, hmid, hnc] at hmem
      | some content0 =>
        simp only [execute_operation, hoper, hmid, hnc] at hmem
        by_cases hcont : valid_ids.contains id0
        · rw [if_pos hcont] at hmem
          cases updateFound
          · simp at hmem
            rcases hmem with h | h
            · constructor
              · intro content imp ns2 hcall
                rw [h] at hcall
                simp at hcall
              · intro id content imp ns2 hcall
                rw [h] at hcall
                simp at hcall
                exact hcall.2.2.1.symm
            · constructor
              · intro content imp ns2 hcall
                rw [h] at hcall
                simp at hcall
                exact hcall.2.1.symm
              · intro id content imp ns2 hcall
                rw [h] at hcall
                simp at hcall
          · simp at hmem
            constructor
            · intro content imp ns2 hcall
              rw [hmem] at hcall
              simp at hcall
            · intro id content imp ns2 hcall
              rw [hmem] at hcall
              simp at hcall
              exact hcall.2.2.1.symm
        · rw [if_neg hcont] at hmem
          simp at hmem
  case delete =>
    cases hmid : result.memory_id with
    | none =>
      simp only [execute_operation, hoper, hmid] at hmem
      obtain ⟨cc, nn, h⟩ := hre _ hmem
      constructor
      · intro content imp ns2 hcall
        rw [h] at hcall
        simp at hcall
        exact hcall.2.1.symm
      · intro id content imp ns2 hcall
        rw [h] at hcall
        simp at hcall
    | some id0 =>
      simp only [execute_operation, hoper, hmid] at hmem
      by_cases hcont : valid_ids.contains id0
      · rw [if_pos hcont] at hmem
        rcases List.mem_cons.1 hmem with h | h
        · constructor
          · intro content imp ns2 hcall
            rw [h] at hcall
            simp at hcall
          · intro id content imp ns2 hcall
            rw [h] at hcall
            simp at hcall
        · obtain ⟨cc, nn, h2⟩ := hre _ h
          constructor
          · intro content imp ns2 hcall
            rw [h2] at hcall
            simp at hcall
            exact hcall.2.1.symm
          · intro id content imp ns2 hcall
            rw [h2] at hcall
            simp at hcall
      · rw [if_neg hcont] at hmem
        simp at hmem

theorem consolidateStep_trace (fact : ExtractedFact) (oracle : FactOracle)
    (ns : String) :
    (consolidateStep fact oracle ns).2 = [] ∨
    ∃ result vids, (consolidateStep fact oracle ns).2 =
      execute_operation result ns (computeImportance fact.importance) vids
        oracle.updateFound := by
  unfold consolidateStep
  by_cases h : (rustTrim fact.content).length < 5
  · rw [if_pos h]
    exact Or.inl rfl
  · rw [if_neg h]
    exact Or.inr ⟨_, _, rfl⟩

/-- C9: every add or update call in a consolidation batch's store trace
carries an importance in `[0, 1]`; the importance is the fact's value
clamped to `[0, 1]` when finite, and `0.5` when NaN or infinite. -/
theorem consolidate_importance_invariant :
    (∀ q : ℚ, computeImportance (F32.finite q) = min (max q 0) 1) ∧
    (computeImportance F32.nan = q0_5 ∧ computeImportance F32.inf = q0_5 ∧
      computeImportance F32.neginf = q0_5) ∧
    (∀ (facts : List (ExtractedFact × FactOracle)) (ns : String)
        (call : StoreCall), call ∈ (consolidate facts ns).2 →
      (∀ content imp ns2, call = StoreCall.add content imp ns2 →
        0 ≤ imp ∧ imp ≤ 1) ∧
      (∀ id content imp ns2, call = StoreCall.update id content imp ns2 →
        0 ≤ imp ∧ imp ≤ 1)) := by
  refine ⟨fun q => rfl, ⟨rfl, rfl, rfl⟩, ?_⟩
  intro facts
  induction facts with
  | nil =>
    intro ns call hmem
    simp [consolidate] at hmem
  | cons fo rest ih =>
    intro ns call hmem
    obtain ⟨fact, oracle⟩ := fo
    simp only [consolidate, List.mem_append] at hmem
    rcases hmem with hmem | hmem
    · rcases consolidateStep_trace fact oracle ns with h | ⟨result, vids, h⟩
      · rw [h] at hmem
        simp at hmem
      · rw [h] at hmem
        have himp := execute_operation_importance result ns
          (computeImportance fact.importance) vids oracle.updateFound call hmem
        constructor
        · intro content imp ns2 hcall
          rw [himp.1 content imp ns2 hcall]
          exact computeImportance_bounds fact.importance
        · intro id content imp ns2 hcall
          rw [himp.2 id content imp ns2 hcall]
          exact computeImportance_bounds fact.importance
    · exact ih ns call hmem

/-- Witness for `consolidate_importance_invariant`: a NaN importance is
stored as 0.5, inside the bounds. -/
theorem consolidate_importance_invariant_witness :
    StoreCall.add "user likes tea" q0_5 "default" ∈
      (consolidate [(⟨"user likes tea", F32.nan, "llm"⟩,
        ⟨some [], none, true⟩)] "default").2 ∧
    (0 ≤ q0_5 ∧ q0_5 ≤ 1) := by
  refine ⟨by decide, ?_⟩
  have h := consolidate_importance_invariant.2.2
    [(⟨"user likes tea", F32.nan, "llm"⟩, ⟨some [], none, true⟩)] "default"
    (StoreCall.add "user likes tea" q0_5 "default") (by decide)
  exact h.1 "user likes tea" q0_5 "default" rfl

/-! ### File-based notes store (`memory/file_store.rs`) -/

/-- The separator list of `truncate` (file_store.rs:89), in source order:
double newline, period-newline, period-space, newline. -/
def truncSeps : List (List Char) := [['\n', '\n'], ['.', '\n'], ['.', ' '], ['\n']]

/-- The separator loop of `truncate`: for each separator in order, take the
last occurrence within the window and cut after it, provided it lies past
half of the truncation point; otherwise try the next separator. -/
def sepCut (window : List Char) (truncate_at : Nat) :
    List (List Char) → Option Nat
  | [] => none
  | sep :: rest =>
    match rfindSub sep window with
    | some pos =>
      if truncate_at / 2 < pos then some (pos + sep.length)
      else sepCut window truncate_at rest
    | none => sepCut window truncate_at rest

/-- `truncate` from `memory/file_store.rs`: keep content within budget,
preferring a separator break past the half-way point (in the order of
`truncSeps`, then a space), falling back to a hard cut, and appending a
truncation marker whenever content is cut. -/
def truncate (content : String) (max_chars : Nat) : String :=
  if content.length ≤ max_chars then content
  else
    match sepCut (content.toList.take (max_chars - 20)) (max_chars - 20)
        truncSeps with
    | some cut => (content.toList.take cut).asString ++ "\n... (truncated)"
    | none =>
      match rfindSub [' '] (content.toList.take (max_chars - 20)) with
      | some pos =>
        if (max_chars - 20) / 2 < pos then
          (content.toList.take pos).asString ++ " ... (truncated)"
        else (content.toList.take (max_chars - 20)).asString ++ "... (truncated)"
      | none =>
        (content.toList.take (max_chars - 20)).asString ++ "... (truncated)"

/-- `MemoryStore::get_memory_context`, parameterized by the two file
contents it reads (`MEMORY.md` and the daily note).  The long-term budget
`(max_chars as f64 * 0.6) as usize` is modelled as the rational floor
`max_chars * 6 / 10`; the two differ by at most one for any feasible size,
from the binary rounding of `0.6`. -/
def get_memory_context (longTerm today : String) (maxChars : Nat) : String :=
  let parts1 : List String :=
    if longTerm == "" then []
    else ["## Long-term Memory\n" ++ truncate longTerm (maxChars * 6 / 10)]
  let remaining :=
    if longTerm == "" then maxChars
    else maxChars - (truncate longTerm (maxChars * 6 / 10)).length
  let parts := parts1 ++
    (if !(today == "") && decide (100 < remaining) then
      ["## Today's Notes\n" ++ truncate today remaining] else [])
  if parts.isEmpty then "" else String.intercalate "\n\n" parts

theorem length_asString (l : List Char) : l.asString.length = l.length := rfl

theorem strLength_append (a b : String) :
    (a ++ b).length = a.length + b.length := by
  show (a ++ b).data.length = a.data.length + b.data.length
  rw [String.data_append, List.length_append]

theorem rfindSub_bound (pat : List Char) :
    ∀ (l : List Char) (i : Nat), rfindSub pat l = some i →
      i + pat.length ≤ l.length := by
  intro l
  induction l with
  | nil =>
    intro i h
    by_cases hp : pat.isEmpty
    · simp [rfindSub, hp] at h
      have hpl : pat = [] := List.isEmpty_iff.mp hp
      simp [hpl]
      omega
    · simp [rfindSub, hp] at h
  | cons c t ih =>
    intro i h
    simp only [rfindSub] at h
    cases hr : rfindSub pat t with
    | some j =>
      rw [hr] at h
      simp at h
      have := ih j hr
      simp only [List.length_cons]
      omega
    | none =>
      rw [hr] at h
      by_cases hp : pat.isPrefixOf (c :: t)
      · simp [hp] at h
        have hle := (List.isPrefixOf_iff_prefix.mp hp).length_le
        simp only [List.length_cons] at hle ⊢
        omega
      · simp [hp] at h

theorem sepCut_bound (window : List Char) (ta : Nat) :
    ∀ (seps : List (List Char)) (cut : Nat),
      sepCut window ta seps = some cut →
      cut ≤ window.length ∧ ta / 2 < cut := by
  intro seps
  induction seps with
  | nil =>
    intro cut h
    simp [sepCut] at h
  | cons sep rest ih =>
    intro cut h
    simp only [sepCut] at h
    cases hr : rfindSub sep window with
    | some pos =>
      rw [hr] at h
      by_cases hgt : ta / 2 < pos
      · simp [hgt] at h
        have hb := rfindSub_bound sep window pos hr
        omega
      · simp [hgt] at h
        exact ih cut h
    | none =>
      rw [hr] at h
      exact ih cut (by simpa using h)

theorem truncate_length_le (s : String) (m : Nat) :
    (truncate s m).length ≤ m + 15 := by
  unfold truncate
  by_cases h : s.length ≤ m
  · rw [if_pos h]
    omega
  · rw [if_neg h]
    cases hsc : sepCut (s.toList.take (m - 20)) (m - 20) truncSeps with
    | some cut =>
      dsimp only
      obtain ⟨hc1, hc2⟩ := sepCut_bound _ _ truncSeps cut hsc
      rw [List.length_take] at hc1
      have h1 : ((s.toList.take cut).asString ++
          ("\n... (truncated)" : String)).length = (s.toList.take cut).length + 16 := by
        rw [strLength_append, length_asString]
        rfl
      simp only [h1, List.length_take]
      omega
    | none =>
      dsimp only
      cases hr : rfindSub [' '] (s.toList.take (m - 20)) with
      | some pos =>
        dsimp only
        have hb := rfindSub_bound [' '] _ pos hr
        rw [List.length_take] at hb
        by_cases hgt : (m - 20) / 2 < pos
        · rw [if_pos hgt]
          have h1 : ((s.toList.take pos).asString ++
              (" ... (truncated)" : String)).length =
              (s.toList.take pos).length + 16 := by
            rw [strLength_append, length_asString]
            rfl
          simp only [h1, List.length_take]
          omega
        · rw [if_neg hgt]
          have h1 : ((s.toList.take (m - 20)).asString ++
              ("... (truncated)" : String)).length =
              (s.toList.take (m - 20)).length + 15 := by
            rw [strLength_append, length_asString]
            rfl
          simp only [h1, List.length_take]
          omega
      | none =>
        dsimp only
        have h1 : ((s.toList.take (m - 20)).asString ++
            ("... (truncated)" : String)).length =
            (s.toList.take (m - 20)).length + 15 := by
          rw [strLength_append, length_asString]
          rfl
        simp only [h1, List.length_take]
        omega

theorem endsWith_append_right (a b suf : String)
    (h : rustEndsWith b suf = true) : rustEndsWith (a ++ b) suf = true := by
  unfold rustEndsWith at h ⊢
  rw [List.isSuffixOf_iff_suffix] at h ⊢
  have hsplit : (a ++ b).toList = a.toList ++ b.toList := by
    simp [String.toList, String.data_append]
  rw [hsplit]
  exact h.trans (List.suffix_append _ _)

theorem truncate_marker (s : String) (m : Nat) (h : m < s.length) :
    rustEndsWith (truncate s m) "... (truncated)" = true := by
  unfold truncate
  rw [if_neg (by omega)]
  cases hsc : sepCut (s.toList.take (m - 20)) (m - 20) truncSeps with
  | some cut =>
    exact endsWith_append_right _ _ _ (by decide)
  | none =>
    dsimp only
    cases hr : rfindSub [' '] (s.toList.take (m - 20)) with
    | some pos =>
      dsimp only
      by_cases hgt : (m - 20) / 2 < pos
      · rw [if_pos hgt]
        exact endsWith_append_right _ _ _ (by decide)
      · rw [if_neg hgt]
        exact endsWith_append_right _ _ _ (by decide)
    | none =>
      exact endsWith_append_right _ _ _ (by decide)

theorem intercalate_single (s a : String) : String.intercalate s [a] = a := rfl

theorem intercalate_pair (s a b : String) :
    String.intercalate s [a, b] = a ++ s ++ b := rfl

theorem get_memory_context_length (longTerm today : String) (maxChars : Nat) :
    (get_memory_context longTerm today maxChars).length ≤ maxChars + 54 := by
  unfold get_memory_context
  by_cases hlt : (longTerm == "") = true
  · simp only [hlt, if_pos, Bool.not_true, List.nil_append]
    by_cases htd : (!(today == "") && decide (100 < maxChars)) = true
    · simp only [htd, if_pos, List.isEmpty_cons, if_neg, Bool.false_eq_true,
        not_false_eq_true, intercalate_single]
      have h2 := truncate_length_le today maxChars
      rw [strLength_append]
      have hA : ("## Today's Notes\n" : String).length = 17 := rfl
      omega
    · simp only [htd, if_neg, Bool.false_eq_true, not_false_eq_true,
        List.isEmpty_nil, if_pos]
      simp
  · simp only [hlt, if_neg, Bool.false_eq_true, not_false_eq_true,
      List.cons_append]
    by_cases htd : (!(today == "") && decide (100 <
        maxChars - (truncate longTerm (maxChars * 6 / 10)).length)) = true
    · have hrem : 100 < maxChars -
          (truncate longTerm (maxChars * 6 / 10)).length := by
        have := (Bool.and_eq_true _ _).mp htd
        simpa using this.2
      simp only [htd, if_pos, List.nil_append, List.isEmpty_cons, if_neg,
        Bool.false_eq_true, not_false_eq_true, intercalate_pair]
      have h2 := truncate_length_le today
        (maxChars - (truncate longTerm (maxChars * 6 / 10)).length)
      rw [strLength_append, strLength_append, strLength_append,
        strLength_append]
      have hA : ("## Long-term Memory\n" : String).length = 20 := rfl
      have hB : ("\n\n" : String).length = 2 := rfl
      have hC : ("## Today's Notes\n" : String).length = 17 := rfl
      omega
    · simp only [htd, if_neg, Bool.false_eq_true, not_false_eq_true,
        List.append_nil, List.isEmpty_cons, intercalate_single]
      have h1 := truncate_length_le longTerm (maxChars * 6 / 10)
      rw [strLength_append]
      have hA : ("## Long-term Memory\n" : String).length = 20 := rfl
      omega

/-- C4: the composed memory context stays within `max_chars` plus a fixed
overhead of 54 chars (two section headers, one separator, one truncation
marker); the long-term excerpt stays within the 60% budget floor plus the
15-char marker; `truncate` appends the truncation marker whenever content
is cut; and the separator search tries the separators backward from the
budget edge in the fixed order — in particular a double newline past the
half-way point wins over every later separator. -/
theorem memory_context_budget_spec :
    (∀ (longTerm today : String) (maxChars : Nat),
      (get_memory_context longTerm today maxChars).length ≤ maxChars + 54) ∧
    (∀ (longTerm : String) (maxChars : Nat),
      (truncate longTerm (maxChars * 6 / 10)).length ≤
        maxChars * 6 / 10 + 15) ∧
    (∀ (s : String) (m : Nat), m < s.length →
      rustEndsWith (truncate s m) "... (truncated)" = true) ∧
    (∀ (s : String) (m pos : Nat), m < s.length →
      rfindSub ['\n', '\n'] (s.toList.take (m - 20)) = some pos →
      (m - 20) / 2 < pos →
      truncate s m =
        (s.toList.take (pos + 2)).asString ++ "\n... (truncated)") := by
  refine ⟨get_memory_context_length,
    fun longTerm maxChars => truncate_length_le longTerm (maxChars * 6 / 10),
    truncate_marker, ?_⟩
  intro s m pos hm hfind hgt
  unfold truncate
  rw [if_neg (by omega)]
  have hfind2 : rfindSub ['\n', '\n'] (List.take (m - 20) s.data) =
      some pos := hfind
  have hsc : sepCut (s.toList.take (m - 20)) (m - 20) truncSeps =
      some (pos + 2) := by
    simp [sepCut, truncSeps, hfind, hfind2, hgt]
  rw [hsc]

/-- Witness for `memory_context_budget_spec`: a 43-char note truncated at
budget 30 breaks at the double newline (last occurrence, index 7) and
carries the marker. -/
theorem memory_context_budget_spec_witness :
    (30 < ("aaaaaaa\n\nbbbbbbbbbbbbbbbbbbbbbbbbbbbbbbbbbb" : String).length) ∧
    rustEndsWith (truncate "aaaaaaa\n\nbbbbbbbbbbbbbbbbbbbbbbbbbbbbbbbbbb" 30)
      "... (truncated)" = true ∧
    truncate "aaaaaaa\n\nbbbbbbbbbbbbbbbbbbbbbbbbbbbbbbbbbb" 30 =
      ("aaaaaaa\n\nbbbbbbbbbbbbbbbbbbbbbbbbbbbbbbbbbb".toList.take 9).asString ++
        "\n... (truncated)" :=
  ⟨by decide,
   memory_context_budget_spec.2.2.1
     "aaaaaaa\n\nbbbbbbbbbbbbbbbbbbbbbbbbbbbbbbbbbb" 30 (by decide),
   memory_context_budget_spec.2.2.2
     "aaaaaaa\n\nbbbbbbbbbbbbbbbbbbbbbbbbbbbbbbbbbb" 30 7 (by decide)
     (by decide) (by decide)⟩

end Femtobot
